import Mathlib

/-!
Shallow embedding of `update_projects.py` from GitRon/ambient-package-update-script.

The script's text manipulation is regex-based.  Both version regexes,
`__version__\s*=\s*"(\d+)\.(\d+)\.(\d+)"` (used by `re.sub` in
`_get_next_version` and `_increment_version`) and
`__version__\s*=\s*"(\d+\.\d+\.\d+)"` (used by `re.search` in
`_get_next_version`), denote the same set of strings and differ only in
capture-group structure, so a single matcher `matchV` embeds both;
`group1` reads off the second regex's single group.  Scanning (`re.sub`,
`re.search`, and counting of the non-overlapping matches `re.sub` rewrites)
is embedded by scanners that advance one character on failure and skip the
matched text on success, which is exactly the leftmost non-overlapping
semantics of `re.sub`/`re.search` for these backtracking-free patterns
(each `\d+`/`\s*` is followed by a character outside its class, so greedy
maximal munch never backtracks).  `scanSub` and `scanCount` use explicit
fuel (initialised to the string length, which bounds the number of scan
steps) so that they are structurally recursive and kernel-computable.

Files are modelled as `Option String` (absent, or present with the given
content); a Python function that falls off its end returns `None`, modelled
as `none : Option String`; `datetime.date.today()` is passed in as an
explicit `date` argument; `\d`, `\s` and `\w` are modelled at ASCII level.
`exit(1)` inside `_print_red` is modelled as the `some 1` exit-status
component of the printer's result.
-/

namespace UpdateProjects

/-- Python `\s` (ASCII part): space, tab, newline, carriage return,
vertical tab, form feed. -/
def isSpaceC (c : Char) : Bool :=
  c = ' ' || c = '\t' || c = '\n' || c = '\r' || c = '\x0b' || c = '\x0c'

/-- The decimal digit character for `n < 10`. -/
def digitChar (n : Nat) : Char := Char.ofNat (48 + n)

/-- Fuelled decimal printer (helper for `natStr`). -/
def natStrF : Nat → Nat → List Char
  | 0, _ => []
  | fuel + 1, n =>
    if n < 10 then [digitChar n] else natStrF fuel (n / 10) ++ [digitChar (n % 10)]

/-- Decimal representation of a natural number, as Python's string
formatting of an `int` produces (no leading zeros, `0 ↦ "0"`). -/
def natStr (n : Nat) : List Char := natStrF (n + 1) n

/-- Numeric value of a digit string, as Python `int` parses it. -/
def digVal (ds : List Char) : Nat := ds.foldl (fun a c => 10 * a + (c.toNat - 48)) 0

/-- The literal part `__version__` of the version regexes. -/
def litV : List Char := "__version__".data

/-- The data of one match of the version pattern
`__version__\s*=\s*"(\d+)\.(\d+)\.(\d+)"`: the two whitespace runs and the
three digit groups.  The matched text itself is `mtext`. -/
structure MatchData where
  ws1 : List Char
  ws2 : List Char
  d1 : List Char
  d2 : List Char
  d3 : List Char
deriving DecidableEq

/-- The part of a match's text after the literal `__version__`. -/
def mrest (m : MatchData) : List Char :=
  m.ws1 ++ '=' :: m.ws2 ++ '"' :: m.d1 ++ '.' :: m.d2 ++ '.' :: m.d3 ++ ['"']

/-- The full text matched by the version pattern for match data `m`. -/
def mtext (m : MatchData) : List Char := litV ++ mrest m

/-- Well-formedness of match data: the whitespace runs are whitespace and
the groups are nonempty digit strings.  `matchV` only produces well-formed
match data. -/
def wfMatch (m : MatchData) : Prop :=
  (∀ c ∈ m.ws1, isSpaceC c) ∧ (∀ c ∈ m.ws2, isSpaceC c) ∧
  m.d1 ≠ [] ∧ (∀ c ∈ m.d1, c.isDigit) ∧
  m.d2 ≠ [] ∧ (∀ c ∈ m.d2, c.isDigit) ∧
  m.d3 ≠ [] ∧ (∀ c ∈ m.d3, c.isDigit)

/-- Strip the literal `p` from the front of `cs`, or fail. -/
def dropLit : List Char → List Char → Option (List Char)
  | [], cs => some cs
  | _ :: _, [] => none
  | p :: ps, c :: cs => if c = p then dropLit ps cs else none

/-- Expect the single character `ch`, returning what follows it. -/
def expectCh (ch : Char) : List Char → Option (List Char)
  | [] => none
  | c :: cs => if c = ch then some cs else none

/-- Greedy `\d+`: the maximal nonempty digit run and the remainder. -/
def spanDigits (cs : List Char) : Option (List Char × List Char) :=
  match cs.takeWhile Char.isDigit with
  | [] => none
  | d :: ds => some (d :: ds, cs.dropWhile Char.isDigit)

/-- Match the version pattern `__version__\s*=\s*"(\d+)\.(\d+)\.(\d+)"`
at the start of `cs` (anchored), returning the match data. -/
def matchV (cs : List Char) : Option MatchData :=
  Option.bind (dropLit litV cs) fun r1 =>
  Option.bind (expectCh '=' (r1.dropWhile isSpaceC)) fun r2 =>
  Option.bind (expectCh '"' (r2.dropWhile isSpaceC)) fun r3 =>
  Option.bind (spanDigits r3) fun p1 =>
  Option.bind (expectCh '.' p1.2) fun r5 =>
  Option.bind (spanDigits r5) fun p2 =>
  Option.bind (expectCh '.' p2.2) fun r7 =>
  Option.bind (spanDigits r7) fun p3 =>
  Option.bind (expectCh '"' p3.2) fun _ =>
  some ⟨r1.takeWhile isSpaceC, r2.takeWhile isSpaceC, p1.1, p2.1, p3.1⟩

/-- Group 1 of the search pattern `__version__\s*=\s*"(\d+\.\d+\.\d+)"`:
the `major.minor.patch` text of a match. -/
def group1 (m : MatchData) : List Char := m.d1 ++ '.' :: m.d2 ++ '.' :: m.d3

/-- The match data of the text produced by `update_version` (the `re.sub`
replacement function in `_get_next_version`) for a match `m`: spacing
normalised to one space on each side of `=`, groups 1 and 2 kept textually,
group 3 parsed, incremented, and reprinted. -/
def incM (m : MatchData) : MatchData :=
  ⟨[' '], [' '], m.d1, m.d2, natStr (digVal m.d3 + 1)⟩

/-- The replacement text `update_version` returns for a match `m`:
`__version__ = "{major}.{minor}.{patch+1}"`. -/
def fRepl (m : MatchData) : List Char := mtext (incM m)

/-- The constant replacement text `__version__ = "{v}"` used by the
`re.sub` in `_increment_version`. -/
def assignChars (v : List Char) : List Char :=
  litV ++ ' ' :: '=' :: ' ' :: '"' :: v ++ ['"']

/-- Fuelled `re.sub` scan: at each position try the anchored match; on
success emit the replacement and continue after the matched text, otherwise
keep the character and advance by one. -/
def scanSubF (f : MatchData → List Char) : Nat → List Char → List Char
  | 0, cs => cs
  | _ + 1, [] => []
  | fuel + 1, c :: cs =>
    match matchV (c :: cs) with
    | some m => f m ++ scanSubF f fuel (cs.drop ((mtext m).length - 1))
    | none => c :: scanSubF f fuel cs

/-- Embedding of `re.sub(pattern, f, cs)` for the version pattern. -/
def scanSub (f : MatchData → List Char) (cs : List Char) : List Char :=
  scanSubF f cs.length cs

/-- Fuelled count of the non-overlapping matches that `re.sub` rewrites. -/
def scanCountF : Nat → List Char → Nat
  | 0, _ => 0
  | _ + 1, [] => 0
  | fuel + 1, c :: cs =>
    match matchV (c :: cs) with
    | some m => 1 + scanCountF fuel (cs.drop ((mtext m).length - 1))
    | none => scanCountF fuel cs

/-- The number of non-overlapping matches of the version pattern in `cs`;
`scanCount cs = 1` states that `cs` contains exactly one version
assignment. -/
def scanCount (cs : List Char) : Nat := scanCountF cs.length cs

/-- Embedding of `re.search` for the version pattern: the leftmost match. -/
def scanSearch : List Char → Option MatchData
  | [] => none
  | c :: cs =>
    match matchV (c :: cs) with
    | some m => some m
    | none => scanSearch cs

/-- No suffix of `pre` longer than zero starts a match when followed by
`tail`: the scan reached the position after `pre` without matching. -/
def NoMatchPre (pre tail : List Char) : Prop :=
  ∀ p q, pre = p ++ q → q ≠ [] → matchV (q ++ tail) = none

/-- The pure content-level part of `_get_next_version`: apply the `re.sub`
with `update_version`, then `re.search` the updated content and return its
group 1, or raise `No version found.`. -/
def get_next_version_pure (content : List Char) : Except String (List Char) :=
  match scanSearch (scanSub fRepl content) with
  | some m => .ok (group1 m)
  | none => .error "No version found."

/-- Model of `_get_next_version`: checks existence, reads the file, computes the
next version, and does not write; the returned file state is the input
file state. -/
def get_next_version (fs : Option String) : Except String (String × Option String) :=
  match fs with
  | none => .error "Version file not found."
  | some content =>
    match get_next_version_pure content.data with
    | .error e => .error e
    | .ok v => .ok (⟨v⟩, some content)

/-- Model of `_increment_version`: checks existence, reads the file, re-reads it
through `_get_next_version` (the file is still unchanged at that point) to
build the replacement string `__version__ = "{next}"`, substitutes, and
writes the file back.  The Python function has no `return` statement, so
its value is `None`: the first component of the result is that returned
value, the second is the new file state. -/
def increment_version (fs : Option String) :
    Except String (Option String × Option String) :=
  match fs with
  | none => .error "Version file not found."
  | some content =>
    match get_next_version_pure content.data with
    | .error e => .error e
    | .ok v => .ok (none, some ⟨scanSub (fun _ => assignChars v) content.data⟩)

/-- Two successive calls of `_increment_version` on the same file path
(the second call reads the file state the first call wrote). -/
def incrementTwice (fs : Option String) : Except String (Option String) :=
  match increment_version fs with
  | .error e => .error e
  | .ok (_, fs1) =>
    match increment_version fs1 with
    | .error e => .error e
    | .ok (_, fs2) => .ok fs2

/-- Python `f.readlines()`: split into lines, each keeping its trailing
newline; a final segment without a newline is kept as-is; an empty file
gives `[]`. -/
def readlinesC : List Char → List (List Char)
  | [] => []
  | c :: cs =>
    if c = '\n' then ['\n'] :: readlinesC cs
    else
      match readlinesC cs with
      | [] => [[c]]
      | l :: ls => (c :: l) :: ls

/-- The changelog entry chunk inserted by `_update_changelog` (one list
element, three lines of text): header, bullet, blank separator. -/
def entryChunk (version date : String) : String :=
  "**" ++ version ++ "** (" ++ date ++
    ")\n  * Maintenance updates via ambient-package-update\n\n"

/-- The content transformation of `_update_changelog`: `readlines`, pad
with `"\n"` while fewer than 3 lines, `insert(2, entry)`, `writelines`. -/
def update_changelog_content (version date content : String) : String :=
  let lines := readlinesC content.data
  let padded := lines ++ List.replicate (3 - lines.length) ['\n']
  ⟨List.flatten (padded.take 2 ++ [(entryChunk version date).data] ++ padded.drop 2)⟩

/-- Model of `_update_changelog`: checks existence, then rewrites the file with the
inserted entry.  `date` stands for `datetime.date.today()`. -/
def update_changelog (version date : String) (fs : Option String) :
    Except String (Option String) :=
  match fs with
  | none => .error "Changelog file not found."
  | some content => .ok (some (update_changelog_content version date content))

/-- Split a string's characters at every newline (the fields between
newlines, like Python `str.split("\n")`); used to talk about "line i of
the file". -/
def splitLinesC : List Char → List (List Char)
  | [] => [[]]
  | c :: cs =>
    if c = '\n' then [] :: splitLinesC cs
    else
      match splitLinesC cs with
      | [] => [[c]]
      | l :: ls => (c :: l) :: ls

/-- The lines of a file content (fields between newline characters). -/
def linesOf (s : String) : List String := (splitLinesC s.data).map fun l => ⟨l⟩

/-- The result of one completed `subprocess.run` invocation. -/
structure CommandResult where
  returncode : Int
  stdout : String
  stderr : String

/-- ANSI-red wrapped text as `_print_red` prints it. -/
def red_text (t : String) : String := "\x1b[91m" ++ t ++ "\x1b[0m"

/-- ANSI-green wrapped text as `_print_green` prints it. -/
def green_text (t : String) : String := "\x1b[92m" ++ t ++ "\x1b[0m"

/-- Model of `_print_red`: prints the red message and then unconditionally calls
`exit(1)`.  Result: (printed text, exit status demanded of the process). -/
def print_red (t : String) : String × Option Nat := (red_text t, some 1)

/-- Model of `_print_green`: prints the green message; the process continues. -/
def print_green (t : String) : String × Option Nat := (green_text t, none)

/-- Model of `_run_command` applied to the completed command's result: success
report on exit code 0, else failure report from stderr if nonempty else
stdout; the failure printer terminates the process. -/
def run_command (r : CommandResult) : String × Option Nat :=
  if r.returncode = 0 then print_green ("> " ++ r.stdout)
  else if r.stderr ≠ "" then print_red ("> " ++ r.stderr)
  else print_red ("> " ++ r.stdout)

/-- The per-package workflow from the template-render step to the end of
the loop body (`update_projects.py` lines 197-239), as the list of external
commands issued plus the resulting version-file and changelog states.
`diff_returncode` is the exit code of the `git diff --quiet` check after
rendering; `branch_already_exists` records whether the maintenance branch
pre-existed at branch setup; `branch_exists_again` is the second
`_check_branch_exists` query on the mutate path.  Plain `print` calls are
presentation only and are not modelled; commands are recorded as the
strings passed to `_run_command`. -/
def process_after_render (venv_exec main_branch branch_name version date : String)
    (branch_already_exists : Bool) (diff_returncode : Int)
    (branch_exists_again : Bool) (vfs cfs : Option String) :
    Except String (List String × Option String × Option String) :=
  let render := venv_exec ++ " -m ambient_package_update.cli render-templates"
  if diff_returncode = 0 then
    if branch_already_exists then
      .ok ([render], vfs, cfs)
    else
      .ok ([render, "git checkout " ++ main_branch,
            "git branch -d " ++ branch_name], vfs, cfs)
  else
    match increment_version vfs with
    | .error e => .error e
    | .ok (_, vfs1) =>
      match update_changelog version date cfs with
      | .error e => .error e
      | .ok cfs1 =>
        .ok ([render] ++
          (if branch_exists_again then ["git checkout " ++ branch_name]
           else ["git switch -c " ++ branch_name]) ++
          ["git add .",
           "git commit -m \"Maintenance (v" ++ version ++ ")\"",
           "git diff --quiet",
           "git push -u origin " ++ branch_name], vfs1, cfs1)

/-- Python `[\w-]` at ASCII level: alphanumeric, underscore or hyphen. -/
def isWordDash (c : Char) : Bool := c.isAlphanum || c = '_' || c = '-'

/-- Greedy `[\w-]+`: maximal nonempty word run and the remainder. -/
def spanWord (cs : List Char) : Option (List Char × List Char) :=
  match cs.takeWhile isWordDash with
  | [] => none
  | d :: ds => some (d :: ds, cs.dropWhile isWordDash)

/-- Match `{key}\s*=\s*"([\w-]+)"` at the start of `cs`, returning the
captured value. -/
def matchKey (key : List Char) (cs : List Char) : Option (List Char) :=
  Option.bind (dropLit key cs) fun r1 =>
  Option.bind (expectCh '=' (r1.dropWhile isSpaceC)) fun r2 =>
  Option.bind (expectCh '"' (r2.dropWhile isSpaceC)) fun r3 =>
  Option.bind (spanWord r3) fun p =>
  Option.bind (expectCh '"' p.2) fun _ =>
  some p.1

/-- Embedding of `re.search` for `{key}\s*=\s*"([\w-]+)"`: value of the leftmost match. -/
def searchKey (key : List Char) : List Char → Option (List Char)
  | [] => none
  | c :: cs =>
    match matchKey key (c :: cs) with
    | some v => some v
    | none => searchKey key cs

/-- Model of `get_package_name_from_config`: search for `module_name = "..."`
first; fall back to `package_name = "..."`; otherwise raise. -/
def get_package_name_from_config (content : String) : Except String String :=
  match searchKey "module_name".data content.data with
  | some v => .ok ⟨v⟩
  | none =>
    match searchKey "package_name".data content.data with
    | some v => .ok ⟨v⟩
    | none => .error "No package name found."

/-- The string `"{a}.{b}.{c}"` for natural numbers `a`, `b`, `c`. -/
def versionStr (a b c : Nat) : String :=
  ⟨natStr a ++ '.' :: natStr b ++ '.' :: natStr c⟩

/-! ### Generic list helpers -/

theorem takeWhile_all_cons {p : Char → Bool} {w : List Char} {c0 : Char} (r : List Char)
    (hw : ∀ c ∈ w, p c = true) (hc : p c0 = false) :
    (w ++ c0 :: r).takeWhile p = w := by
  rw [List.takeWhile_append_of_pos hw, List.takeWhile_cons, hc]
  simp

theorem dropWhile_all_cons {p : Char → Bool} {w : List Char} {c0 : Char} (r : List Char)
    (hw : ∀ c ∈ w, p c = true) (hc : p c0 = false) :
    (w ++ c0 :: r).dropWhile p = c0 :: r := by
  induction w with
  | nil => simp [List.dropWhile_cons, hc]
  | cons a w ih =>
    have ha : p a = true := hw a (by simp)
    simp only [List.cons_append, List.dropWhile_cons, ha, if_true]
    exact ih fun c hcw => hw c (by simp [hcw])

theorem mem_takeWhile_p {p : Char → Bool} : ∀ {l : List Char} {c : Char},
    c ∈ l.takeWhile p → p c = true := by
  intro l
  induction l with
  | nil => intro c h; simp [List.takeWhile] at h
  | cons a l ih =>
    intro c h
    rw [List.takeWhile_cons] at h
    by_cases ha : p a
    · simp [ha] at h
      rcases h with h | h
      · rwa [h]
      · exact ih h
    · simp [ha] at h

/-! ### Decimal printing and parsing -/

theorem natStrF_congr : ∀ (f₁ f₂ n : Nat), n < f₁ → n < f₂ → natStrF f₁ n = natStrF f₂ n := by
  intro f₁
  induction f₁ with
  | zero => intro f₂ n h; omega
  | succ f₁ ih =>
    intro f₂ n h1 h2
    cases f₂ with
    | zero => omega
    | succ f₂ =>
      by_cases h10 : n < 10
      · simp [natStrF, h10]
      · have hdiv : n / 10 < n := Nat.div_lt_self (by omega) (by omega)
        simp only [natStrF, h10, if_false]
        rw [ih f₂ (n / 10) (by omega) (by omega)]

theorem natStr_step {n : Nat} (h : ¬ n < 10) :
    natStr n = natStr (n / 10) ++ [digitChar (n % 10)] := by
  have hdiv : n / 10 < n := Nat.div_lt_self (by omega) (by omega)
  unfold natStr
  rw [show natStrF (n + 1) n = natStrF n (n / 10) ++ [digitChar (n % 10)] by
    simp [natStrF, h]]
  rw [natStrF_congr n (n / 10 + 1) (n / 10) (by omega) (by omega)]

theorem natStr_small {n : Nat} (h : n < 10) : natStr n = [digitChar n] := by
  simp [natStr, natStrF, h]

theorem digitChar_isDigit {k : Nat} (h : k < 10) : (digitChar k).isDigit = true := by
  have : ∀ k' < 10, (digitChar k').isDigit = true := by decide
  exact this k h

theorem digitChar_toNat {k : Nat} (h : k < 10) : (digitChar k).toNat = 48 + k := by
  have : ∀ k' < 10, (digitChar k').toNat = 48 + k' := by decide
  exact this k h

theorem natStr_ne_nil (n : Nat) : natStr n ≠ [] := by
  by_cases h : n < 10
  · rw [natStr_small h]; simp
  · rw [natStr_step h]; simp

theorem natStr_digits (n : Nat) : ∀ c ∈ natStr n, c.isDigit = true := by
  induction n using Nat.strong_induction_on with
  | _ n ih =>
    by_cases h : n < 10
    · rw [natStr_small h]
      intro c hc
      simp at hc
      rw [hc]; exact digitChar_isDigit h
    · rw [natStr_step h]
      intro c hc
      rcases List.mem_append.mp hc with hc | hc
      · exact ih (n / 10) (Nat.div_lt_self (by omega) (by omega)) c hc
      · simp at hc
        rw [hc]; exact digitChar_isDigit (Nat.mod_lt n (by omega))

theorem digVal_append_digit (xs : List Char) (c : Char) :
    digVal (xs ++ [c]) = 10 * digVal xs + (c.toNat - 48) := by
  simp [digVal, List.foldl_append]

theorem digVal_natStr (n : Nat) : digVal (natStr n) = n := by
  induction n using Nat.strong_induction_on with
  | _ n ih =>
    by_cases h : n < 10
    · rw [natStr_small h]
      simp [digVal, digitChar_toNat h]
    · rw [natStr_step h, digVal_append_digit,
        ih (n / 10) (Nat.div_lt_self (by omega) (by omega)),
        digitChar_toNat (Nat.mod_lt n (by omega))]
      omega

/-! ### The version-pattern matcher: soundness and completeness -/

theorem dropLit_eq_some : ∀ {p cs r : List Char}, dropLit p cs = some r → cs = p ++ r := by
  intro p
  induction p with
  | nil => intro cs r h; simp [dropLit] at h; simp [h]
  | cons a p ih =>
    intro cs r h
    cases cs with
    | nil => simp [dropLit] at h
    | cons c cs =>
      simp only [dropLit] at h
      by_cases hc : c = a
      · rw [if_pos hc] at h
        rw [hc, ih h]; rfl
      · rw [if_neg hc] at h; cases h

theorem dropLit_self : ∀ (p r : List Char), dropLit p (p ++ r) = some r := by
  intro p
  induction p with
  | nil => intro r; rfl
  | cons a p ih => intro r; simp [dropLit, ih]

theorem expectCh_eq_some {ch : Char} {cs r : List Char} (h : expectCh ch cs = some r) :
    cs = ch :: r := by
  cases cs with
  | nil => cases h
  | cons c cs =>
    simp only [expectCh] at h
    by_cases hc : c = ch
    · rw [if_pos hc] at h
      simp at h
      rw [hc, h]
    · rw [if_neg hc] at h; cases h

theorem expectCh_self (ch : Char) (r : List Char) : expectCh ch (ch :: r) = some r := by
  simp [expectCh]

theorem spanDigits_eq_some {cs d r : List Char} (h : spanDigits cs = some (d, r)) :
    cs = d ++ r ∧ d ≠ [] ∧ (∀ c ∈ d, c.isDigit = true) := by
  unfold spanDigits at h
  cases htw : cs.takeWhile Char.isDigit with
  | nil => rw [htw] at h; cases h
  | cons x xs =>
    rw [htw] at h
    simp only [Option.some.injEq, Prod.mk.injEq] at h
    obtain ⟨hd, hr⟩ := h
    refine ⟨?_, ?_, ?_⟩
    · rw [← hd, ← hr, ← htw, List.takeWhile_append_dropWhile]
    · rw [← hd]; simp
    · intro c hc
      rw [← hd] at hc
      exact mem_takeWhile_p (htw ▸ hc)

theorem spanDigits_mk {d : List Char} {c0 : Char} (r : List Char) (hd : d ≠ [])
    (hdig : ∀ c ∈ d, c.isDigit = true) (hc : c0.isDigit = false) :
    spanDigits (d ++ c0 :: r) = some (d, c0 :: r) := by
  unfold spanDigits
  rw [takeWhile_all_cons r hdig hc, dropWhile_all_cons r hdig hc]
  cases d with
  | nil => exact absurd rfl hd
  | cons x xs => rfl

theorem mtext_expand (m : MatchData) (rest : List Char) :
    mtext m ++ rest =
      litV ++ (m.ws1 ++ ('=' :: (m.ws2 ++ ('"' :: (m.d1 ++ ('.' :: (m.d2 ++
        ('.' :: (m.d3 ++ ('"' :: rest)))))))))) := by
  simp [mtext, mrest]

/-- Soundness of the matcher: a successful match decomposes the input as
the matched text followed by a remainder, and the match data is
well-formed. -/
theorem matchV_eq_some {cs : List Char} {m : MatchData} (h : matchV cs = some m) :
    ∃ rest, cs = mtext m ++ rest ∧ wfMatch m := by
  simp only [matchV, Option.bind_eq_some, Option.some.injEq] at h
  obtain ⟨r1, h1, r2, h2, r3, h3, ⟨d1, r4⟩, h4, r5, h5, ⟨d2, r6⟩, h6, r7, h7, ⟨d3, r8⟩,
    h8, r9, h9, hm⟩ := h
  dsimp only at h5 h7 h9 hm
  obtain ⟨hq1, hd1ne, hd1⟩ := spanDigits_eq_some h4
  obtain ⟨hq2, hd2ne, hd2⟩ := spanDigits_eq_some h6
  obtain ⟨hq3, hd3ne, hd3⟩ := spanDigits_eq_some h8
  have e1 := dropLit_eq_some h1
  have e2 := expectCh_eq_some h2
  have e3 := expectCh_eq_some h3
  have e5 := expectCh_eq_some h5
  have e7 := expectCh_eq_some h7
  have e9 := expectCh_eq_some h9
  refine ⟨r9, ?_, ?_⟩
  · rw [mtext_expand, ← hm]
    dsimp only
    rw [e1]
    conv_lhs => rw [← List.takeWhile_append_dropWhile isSpaceC r1, e2,
      ← List.takeWhile_append_dropWhile isSpaceC r2, e3, hq1, e5, hq2, e7, hq3, e9]
  · rw [← hm]
    exact ⟨fun c hc => mem_takeWhile_p hc, fun c hc => mem_takeWhile_p hc,
      hd1ne, hd1, hd2ne, hd2, hd3ne, hd3⟩

/-- Completeness of the matcher: well-formed match text followed by
anything matches, producing exactly that match data (the matcher only
inspects the matched text itself). -/
theorem matchV_mtext (m : MatchData) (hm : wfMatch m) (rest : List Char) :
    matchV (mtext m ++ rest) = some m := by
  obtain ⟨h1, h2, h3, h4, h5, h6, h7, h8⟩ := hm
  rw [mtext_expand]
  simp only [matchV, dropLit_self, Option.some_bind]
  rw [dropWhile_all_cons _ h1 (by decide), expectCh_self]
  simp only [Option.some_bind]
  rw [dropWhile_all_cons _ h2 (by decide), expectCh_self]
  simp only [Option.some_bind]
  rw [spanDigits_mk _ h3 h4 (by decide)]
  simp only [Option.some_bind]
  rw [expectCh_self]
  simp only [Option.some_bind]
  rw [spanDigits_mk _ h5 h6 (by decide)]
  simp only [Option.some_bind]
  rw [expectCh_self]
  simp only [Option.some_bind]
  rw [spanDigits_mk _ h7 h8 (by decide)]
  simp only [Option.some_bind]
  rw [expectCh_self]
  simp only [Option.some_bind, Option.some.injEq]
  rw [takeWhile_all_cons _ h1 (by decide), takeWhile_all_cons _ h2 (by decide)]

theorem mtext_ne_nil (m : MatchData) : mtext m ≠ [] := by
  simp [mtext, litV]

/-- After a match at the head of `c :: t`, the scan resumes exactly at the
remainder following the matched text. -/
theorem tail_drop_mtext {c : Char} {t rest : List Char} {m : MatchData}
    (h : c :: t = mtext m ++ rest) : t.drop ((mtext m).length - 1) = rest := by
  cases hm : mtext m with
  | nil => exact absurd hm (mtext_ne_nil m)
  | cons x mt =>
    rw [hm] at h
    rw [List.cons_append] at h
    injection h with hx ht
    rw [ht]
    simp only [List.length_cons, Nat.add_sub_cancel]
    exact List.drop_left mt rest

/-! ### Scanner step lemmas (fuel elimination) -/

theorem scanSubF_nil (f : MatchData → List Char) :
    ∀ fuel, scanSubF f fuel [] = [] := by
  intro fuel; cases fuel <;> rfl

theorem scanSubF_congr (f : MatchData → List Char) :
    ∀ f₁ f₂ cs, cs.length ≤ f₁ → cs.length ≤ f₂ →
      scanSubF f f₁ cs = scanSubF f f₂ cs := by
  intro f₁
  induction f₁ with
  | zero =>
    intro f₂ cs h1 h2
    have hcs : cs = [] := List.length_eq_zero.mp (by omega)
    subst hcs
    rw [scanSubF_nil, scanSubF_nil]
  | succ f₁ ih =>
    intro f₂ cs h1 h2
    cases cs with
    | nil => rw [scanSubF_nil, scanSubF_nil]
    | cons c t =>
      cases f₂ with
      | zero => simp at h2
      | succ f₂ =>
        simp only [List.length_cons] at h1 h2
        cases hm : matchV (c :: t) with
        | some m =>
          simp only [scanSubF, hm]
          rw [ih f₂ _ (by rw [List.length_drop]; omega) (by rw [List.length_drop]; omega)]
        | none =>
          simp only [scanSubF, hm]
          rw [ih f₂ _ (by omega) (by omega)]

theorem scanSub_nil (f : MatchData → List Char) : scanSub f [] = [] := rfl

theorem scanSub_cons_some {c : Char} {t : List Char} {m : MatchData}
    (f : MatchData → List Char) (hm : matchV (c :: t) = some m) :
    scanSub f (c :: t) = f m ++ scanSub f (t.drop ((mtext m).length - 1)) := by
  unfold scanSub
  simp only [List.length_cons, scanSubF, hm]
  congr 1
  exact scanSubF_congr f t.length _ _ (by rw [List.length_drop]; omega) le_rfl

theorem scanSub_cons_none {c : Char} {t : List Char}
    (f : MatchData → List Char) (hm : matchV (c :: t) = none) :
    scanSub f (c :: t) = c :: scanSub f t := by
  unfold scanSub
  simp only [List.length_cons, scanSubF, hm]

theorem scanCountF_nil : ∀ fuel, scanCountF fuel [] = 0 := by
  intro fuel; cases fuel <;> rfl

theorem scanCountF_congr :
    ∀ f₁ f₂ cs, cs.length ≤ f₁ → cs.length ≤ f₂ →
      scanCountF f₁ cs = scanCountF f₂ cs := by
  intro f₁
  induction f₁ with
  | zero =>
    intro f₂ cs h1 h2
    have hcs : cs = [] := List.length_eq_zero.mp (by omega)
    subst hcs
    rw [scanCountF_nil, scanCountF_nil]
  | succ f₁ ih =>
    intro f₂ cs h1 h2
    cases cs with
    | nil => rw [scanCountF_nil, scanCountF_nil]
    | cons c t =>
      cases f₂ with
      | zero => simp at h2
      | succ f₂ =>
        simp only [List.length_cons] at h1 h2
        cases hm : matchV (c :: t) with
        | some m =>
          simp only [scanCountF, hm]
          rw [ih f₂ _ (by rw [List.length_drop]; omega) (by rw [List.length_drop]; omega)]
        | none =>
          simp only [scanCountF, hm]
          rw [ih f₂ _ (by omega) (by omega)]

theorem scanCount_nil : scanCount [] = 0 := rfl

theorem scanCount_cons_some {c : Char} {t : List Char} {m : MatchData}
    (hm : matchV (c :: t) = some m) :
    scanCount (c :: t) = 1 + scanCount (t.drop ((mtext m).length - 1)) := by
  unfold scanCount
  simp only [List.length_cons, scanCountF, hm]
  congr 1
  exact scanCountF_congr t.length _ _ (by rw [List.length_drop]; omega) le_rfl

theorem scanCount_cons_none {c : Char} {t : List Char}
    (hm : matchV (c :: t) = none) :
    scanCount (c :: t) = scanCount t := by
  unfold scanCount
  simp only [List.length_cons, scanCountF, hm]

theorem scanSearch_cons_some {c : Char} {t : List Char} {m : MatchData}
    (hm : matchV (c :: t) = some m) : scanSearch (c :: t) = some m := by
  simp only [scanSearch, hm]

theorem scanSearch_cons_none {c : Char} {t : List Char}
    (hm : matchV (c :: t) = none) : scanSearch (c :: t) = scanSearch t := by
  simp only [scanSearch, hm]

/-! ### Scan structure lemmas -/

theorem scanSub_of_count_zero (f : MatchData → List Char) :
    ∀ cs, scanCount cs = 0 → scanSub f cs = cs := by
  intro cs
  induction cs with
  | nil => intro _; exact scanSub_nil f
  | cons c t ih =>
    intro h
    cases hm : matchV (c :: t) with
    | some m => rw [scanCount_cons_some hm] at h; omega
    | none => rw [scanSub_cons_none f hm, ih (by rwa [scanCount_cons_none hm] at h)]

theorem scanSearch_none_iff : ∀ cs, scanSearch cs = none ↔ scanCount cs = 0 := by
  intro cs
  induction cs with
  | nil => simp [scanSearch, scanCount_nil]
  | cons c t ih =>
    cases hm : matchV (c :: t) with
    | some m =>
      rw [scanSearch_cons_some hm, scanCount_cons_some hm]
      simp
    | none => rw [scanSearch_cons_none hm, scanCount_cons_none hm]; exact ih

/-- Decomposition along the leftmost match: the scan splits the input into
a prefix with no match at any of its positions, the matched text, and the
remainder; `re.sub` rewrites accordingly and the match count counts the
first match plus those of the remainder. -/
theorem scanSearch_eq_some : ∀ {cs : List Char} {m : MatchData}, scanSearch cs = some m →
    ∃ pre rest, cs = pre ++ mtext m ++ rest ∧ wfMatch m ∧
      NoMatchPre pre (mtext m ++ rest) ∧
      (∀ f, scanSub f cs = pre ++ f m ++ scanSub f rest) ∧
      scanCount cs = 1 + scanCount rest := by
  intro cs
  induction cs with
  | nil => intro m h; cases h
  | cons c t ih =>
    intro m h
    cases hm : matchV (c :: t) with
    | some m0 =>
      rw [scanSearch_cons_some hm, Option.some.injEq] at h
      subst h
      obtain ⟨rest, hdec, hwf⟩ := matchV_eq_some hm
      refine ⟨[], rest, by simpa using hdec, hwf, ?_, ?_, ?_⟩
      · intro p q hpq hq
        exact absurd (List.append_eq_nil.mp hpq.symm).2 hq
      · intro f
        rw [scanSub_cons_some f hm, tail_drop_mtext hdec]
        simp
      · rw [scanCount_cons_some hm, tail_drop_mtext hdec]
    | none =>
      rw [scanSearch_cons_none hm] at h
      obtain ⟨pre, rest, hdec, hwf, hnmp, hsub, hcnt⟩ := ih h
      refine ⟨c :: pre, rest, by simp [hdec], hwf, ?_, ?_, ?_⟩
      · intro p q hpq hq
        cases p with
        | nil =>
          simp only [List.nil_append] at hpq
          have hq' : q ++ (mtext m ++ rest) = c :: t := by
            rw [← hpq, hdec]
            simp
          rw [hq']
          exact hm
        | cons a p' =>
          rw [List.cons_append] at hpq
          injection hpq with h1 h2
          exact hnmp p' q h2 hq
      · intro f
        rw [scanSub_cons_none f hm, hsub f]
        simp
      · rw [scanCount_cons_none hm, hcnt]

theorem NoMatchPre_tail {c : Char} {pre tail : List Char}
    (h : NoMatchPre (c :: pre) tail) : NoMatchPre pre tail :=
  fun p q hpq hq => h (c :: p) q (by rw [List.cons_append, hpq]) hq

/-- Scanning a string decomposed as a no-match prefix, well-formed match
text, and remainder finds exactly that match. -/
theorem scanSearch_decomposed {m : MatchData} (hwf : wfMatch m) :
    ∀ (pre rest : List Char), NoMatchPre pre (mtext m ++ rest) →
      scanSearch (pre ++ mtext m ++ rest) = some m := by
  intro pre
  induction pre with
  | nil =>
    intro rest _
    obtain ⟨x, mt, hx⟩ : ∃ x mt, mtext m = x :: mt := by
      cases hmt : mtext m with
      | nil => exact absurd hmt (mtext_ne_nil m)
      | cons x mt => exact ⟨x, mt, rfl⟩
    have hdec : x :: (mt ++ rest) = mtext m ++ rest := by rw [hx, List.cons_append]
    have hmv : matchV (x :: (mt ++ rest)) = some m := by
      rw [hdec]; exact matchV_mtext m hwf rest
    rw [show ([] ++ mtext m ++ rest : List Char) = x :: (mt ++ rest) by
      rw [List.nil_append, ← hdec]]
    exact scanSearch_cons_some hmv
  | cons c pre ih =>
    intro rest hnmp
    have hnone : matchV (c :: (pre ++ mtext m ++ rest)) = none := by
      have := hnmp [] (c :: pre) rfl (by simp)
      simpa [List.append_assoc] using this
    rw [show ((c :: pre) ++ mtext m ++ rest : List Char) = c :: (pre ++ mtext m ++ rest) by
      simp]
    rw [scanSearch_cons_none hnone]
    exact ih rest (NoMatchPre_tail hnmp)

/-- Match count of such a decomposed string: one plus the remainder's. -/
theorem scanCount_decomposed {m : MatchData} (hwf : wfMatch m) :
    ∀ (pre rest : List Char), NoMatchPre pre (mtext m ++ rest) →
      scanCount (pre ++ mtext m ++ rest) = 1 + scanCount rest := by
  intro pre
  induction pre with
  | nil =>
    intro rest _
    obtain ⟨x, mt, hx⟩ : ∃ x mt, mtext m = x :: mt := by
      cases hmt : mtext m with
      | nil => exact absurd hmt (mtext_ne_nil m)
      | cons x mt => exact ⟨x, mt, rfl⟩
    have hdec : x :: (mt ++ rest) = mtext m ++ rest := by rw [hx, List.cons_append]
    have hmv : matchV (x :: (mt ++ rest)) = some m := by
      rw [hdec]; exact matchV_mtext m hwf rest
    rw [show ([] ++ mtext m ++ rest : List Char) = x :: (mt ++ rest) by
      rw [List.nil_append, ← hdec]]
    rw [scanCount_cons_some hmv, tail_drop_mtext hdec]
  | cons c pre ih =>
    intro rest hnmp
    have hnone : matchV (c :: (pre ++ mtext m ++ rest)) = none := by
      have := hnmp [] (c :: pre) rfl (by simp)
      simpa [List.append_assoc] using this
    rw [show ((c :: pre) ++ mtext m ++ rest : List Char) = c :: (pre ++ mtext m ++ rest) by
      simp]
    rw [scanCount_cons_none hnone]
    exact ih rest (NoMatchPre_tail hnmp)

/-- Applying `re.sub` to such a decomposed string rewrites exactly that match and
recurses into the remainder. -/
theorem scanSub_decomposed {m : MatchData} (f : MatchData → List Char) (hwf : wfMatch m) :
    ∀ (pre rest : List Char), NoMatchPre pre (mtext m ++ rest) →
      scanSub f (pre ++ mtext m ++ rest) = pre ++ f m ++ scanSub f rest := by
  intro pre
  induction pre with
  | nil =>
    intro rest _
    obtain ⟨x, mt, hx⟩ : ∃ x mt, mtext m = x :: mt := by
      cases hmt : mtext m with
      | nil => exact absurd hmt (mtext_ne_nil m)
      | cons x mt => exact ⟨x, mt, rfl⟩
    have hdec : x :: (mt ++ rest) = mtext m ++ rest := by rw [hx, List.cons_append]
    have hmv : matchV (x :: (mt ++ rest)) = some m := by
      rw [hdec]; exact matchV_mtext m hwf rest
    rw [show ([] ++ mtext m ++ rest : List Char) = x :: (mt ++ rest) by
      rw [List.nil_append, ← hdec]]
    rw [scanSub_cons_some f hmv, tail_drop_mtext hdec]
    simp
  | cons c pre ih =>
    intro rest hnmp
    have hnone : matchV (c :: (pre ++ mtext m ++ rest)) = none := by
      have := hnmp [] (c :: pre) rfl (by simp)
      simpa [List.append_assoc] using this
    rw [show ((c :: pre) ++ mtext m ++ rest : List Char) = c :: (pre ++ mtext m ++ rest) by
      simp]
    rw [scanSub_cons_none f hnone, ih rest (NoMatchPre_tail hnmp)]
    simp

theorem underscore_not_in_mrest {m : MatchData} (h : wfMatch m) : '_' ∉ mrest m := by
  obtain ⟨h1, h2, _, h4, _, h6, _, h8⟩ := h
  intro hmem
  simp only [mrest, List.mem_append, List.mem_cons, List.mem_singleton,
    List.not_mem_nil, or_false] at hmem
  rcases hmem with ((((hm | hm | hm) | hm | hm) | hm | hm) | hm | hm) | hm
  · exact absurd (h1 _ hm) (by decide)
  · exact absurd hm (by decide)
  · exact absurd (h2 _ hm) (by decide)
  · exact absurd hm (by decide)
  · exact absurd (h4 _ hm) (by decide)
  · exact absurd hm (by decide)
  · exact absurd (h6 _ hm) (by decide)
  · exact absurd hm (by decide)
  · exact absurd (h8 _ hm) (by decide)
  · exact absurd hm (by decide)


theorem litV_cons : litV = '_' :: "_version__".data := by decide

theorem litV_len : litV.length = 11 := by decide

/-- The boundary lemma: replacing a match deeper in the string cannot
create a match at an earlier position.  If no match starts at the head of
`q ++ told` (`q` nonempty), then no match starts at the head of
`q ++ mtext m' ++ tnew` either: a match there would either lie entirely
within `q` (contradicting the first assumption) or cross into `mtext m'`,
which is impossible because the matched text `__version__...` cannot
overlap a strict suffix of itself followed by `\s*=...`. -/
theorem no_match_transfer {q told tnew : List Char} {m' : MatchData}
    (hq : q ≠ []) (hnone : matchV (q ++ told) = none) :
    matchV (q ++ (mtext m' ++ tnew)) = none := by
  cases hmv : matchV (q ++ (mtext m' ++ tnew)) with
  | none => rfl
  | some m2 =>
    exfalso
    obtain ⟨r2, hdec2, hwf2⟩ := matchV_eq_some hmv
    by_cases hk : (mtext m2).length ≤ q.length
    · -- the new match lies entirely within `q`, so it was there before
      have eL : q.take (mtext m2).length = mtext m2 := by
        have e := congrArg (List.take (mtext m2).length) hdec2
        rw [List.take_append_of_le_length hk, List.take_left] at e
        exact e
      have : matchV (q ++ told) = some m2 := by
        conv_lhs => rw [← List.take_append_drop (mtext m2).length q, eL,
          List.append_assoc]
        exact matchV_mtext m2 hwf2 _
      rw [hnone] at this
      cases this
    · push_neg at hk
      have hq1 : 1 ≤ q.length := by
        cases q with
        | nil => exact absurd rfl hq
        | cons a t => simp
      -- `q` is a strict prefix of the new matched text
      have hqpre : (mtext m2).take q.length = q := by
        have e := congrArg (List.take q.length) hdec2
        rw [List.take_left, List.take_append_of_le_length (le_of_lt hk)] at e
        exact e.symm
      have hu : mtext m' ++ tnew = (mtext m2).drop q.length ++ r2 := by
        have e := congrArg (List.drop q.length) hdec2
        rw [List.drop_left, List.drop_append_of_le_length (le_of_lt hk)] at e
        exact e
      -- the first character after `q` inside the new match is `'_'`
      obtain ⟨y, u', hy⟩ : ∃ y u', (mtext m2).drop q.length = y :: u' := by
        cases hd : (mtext m2).drop q.length with
        | nil =>
          have := List.length_drop q.length (mtext m2)
          rw [hd] at this
          simp at this
          omega
        | cons y u' => exact ⟨y, u', rfl⟩
      have hhead : y = '_' := by
        rw [hy] at hu
        rw [show mtext m' ++ tnew = '_' :: ("_version__".data ++ (mrest m' ++ tnew)) by
          rw [mtext, litV_cons]; simp] at hu
        injection hu with h1 _
        exact h1.symm
      subst hhead
      -- that position cannot be past the literal, since `'_' ∉ mrest m2`
      have hlit : q.length < litV.length := by
        by_contra hge
        push_neg at hge
        have hdd : (mtext m2).drop q.length = (mrest m2).drop (q.length - litV.length) := by
          conv_lhs =>
            rw [show mtext m2 = litV ++ mrest m2 from rfl,
              show q.length = litV.length + (q.length - litV.length) by omega,
              List.drop_append]
        have hmem : '_' ∈ mrest m2 := by
          have hsub := List.drop_subset (q.length - litV.length) (mrest m2)
          rw [← hdd, hy] at hsub
          exact hsub (by simp)
        exact underscore_not_in_mrest hwf2 hmem
      have hulit : (mtext m2).drop q.length = litV.drop q.length ++ mrest m2 := by
        rw [show mtext m2 = litV ++ mrest m2 from rfl,
          List.drop_append_of_le_length (le_of_lt hlit)]
      have hcomb : litV ++ (mrest m' ++ tnew) = litV.drop q.length ++ (mrest m2 ++ r2) := by
        have e : mtext m' ++ tnew = (litV.drop q.length ++ mrest m2) ++ r2 := by
          rw [hu, hulit]
        rw [mtext] at e
        simpa [List.append_assoc] using e
      have hdlen : (litV.drop q.length).length = litV.length - q.length := by
        rw [List.length_drop]
      have heq1 : litV.take (litV.length - q.length) = litV.drop q.length := by
        have e := congrArg (List.take (litV.length - q.length)) hcomb
        rw [List.take_append_of_le_length (by omega),
          List.take_left' hdlen] at e
        exact e
      have heq2 : litV.drop (litV.length - q.length) ++ (mrest m' ++ tnew) =
          mrest m2 ++ r2 := by
        have e := congrArg (List.drop (litV.length - q.length)) hcomb
        rw [List.drop_append_of_le_length (by omega),
          List.drop_left' hdlen] at e
        exact e
      -- finitely many positions remain; all are impossible
      rw [litV_len] at hlit heq1 heq2
      set j := q.length with hj
      have hws1 := hwf2.1
      interval_cases j
      · exact absurd heq1 (by decide)
      · exact absurd heq1 (by decide)
      · exact absurd heq1 (by decide)
      · exact absurd heq1 (by decide)
      · exact absurd heq1 (by decide)
      · exact absurd heq1 (by decide)
      · exact absurd heq1 (by decide)
      · exact absurd heq1 (by decide)
      · -- j = 9: after the overlap the pattern expects `\s*=` but sees `v`
        rw [show (11 - 9 : Nat) = 2 by rfl,
          show List.drop 2 litV = 'v' :: "ersion__".data by decide] at heq2
        rw [show mrest m2 = m2.ws1 ++ '=' :: (m2.ws2 ++ '"' :: (m2.d1 ++ '.' ::
          (m2.d2 ++ '.' :: (m2.d3 ++ ['"'])))) by simp [mrest]] at heq2
        cases hws : m2.ws1 with
        | nil =>
          rw [hws] at heq2
          simp only [List.nil_append, List.cons_append] at heq2
          injection heq2 with h1 _
          exact absurd h1 (by decide)
        | cons w ws =>
          rw [hws] at heq2
          simp only [List.cons_append] at heq2
          injection heq2 with h1 _
          have := hws1 w (by rw [hws]; simp)
          rw [← h1] at this
          exact absurd this (by decide)
      · -- j = 10: after the overlap the pattern expects `\s*=` but sees `_`
        rw [show (11 - 10 : Nat) = 1 by rfl,
          show List.drop 1 litV = '_' :: "version__".data by decide] at heq2
        rw [show mrest m2 = m2.ws1 ++ '=' :: (m2.ws2 ++ '"' :: (m2.d1 ++ '.' ::
          (m2.d2 ++ '.' :: (m2.d3 ++ ['"'])))) by simp [mrest]] at heq2
        cases hws : m2.ws1 with
        | nil =>
          rw [hws] at heq2
          simp only [List.nil_append, List.cons_append] at heq2
          injection heq2 with h1 _
          exact absurd h1 (by decide)
        | cons w ws =>
          rw [hws] at heq2
          simp only [List.cons_append] at heq2
          injection heq2 with h1 _
          have := hws1 w (by rw [hws]; simp)
          rw [← h1] at this
          exact absurd this (by decide)

/-- A no-match prefix stays a no-match prefix when the tail is replaced by
any well-formed match text and remainder. -/
theorem NoMatchPre_transfer {pre told tnew : List Char} {m' : MatchData}
    (h : NoMatchPre pre told) : NoMatchPre pre (mtext m' ++ tnew) :=
  fun p q hpq hq => no_match_transfer hq (h p q hpq hq)

/-! ### The version-file operations -/

theorem wf_incM {m : MatchData} (h : wfMatch m) : wfMatch (incM m) := by
  obtain ⟨_, _, h3, h4, h5, h6, _, _⟩ := h
  refine ⟨?_, ?_, h3, h4, h5, h6, natStr_ne_nil _, natStr_digits _⟩ <;>
  · intro c hc
    simp [incM] at hc
    rw [hc]; decide

theorem assignChars_group1 (m' : MatchData) :
    assignChars (group1 m') = mtext ⟨[' '], [' '], m'.d1, m'.d2, m'.d3⟩ := by
  simp [assignChars, group1, mtext, mrest, litV]

/-- Evaluating `_get_next_version`'s pure computation on any content whose leftmost
match is `m` returns group 1 of the rewritten leftmost match:
`{major}.{minor}.{patch+1}`. -/
theorem get_next_version_pure_ok {cs : List Char} {m : MatchData}
    (hs : scanSearch cs = some m) :
    get_next_version_pure cs = .ok (group1 (incM m)) := by
  obtain ⟨pre, rest, hdec, hwf, hnmp, hsub, hcnt⟩ := scanSearch_eq_some hs
  unfold get_next_version_pure
  rw [hsub fRepl]
  rw [show scanSearch (pre ++ fRepl m ++ scanSub fRepl rest) = some (incM m) from
    scanSearch_decomposed (wf_incM hwf) pre _ (NoMatchPre_transfer hnmp)]

/-- Evaluating `_increment_version` on a file decomposed around its unique match:
returns `None` and rewrites exactly the matched assignment. -/
theorem increment_of_decomposed {pre rest : List Char} {m1 : MatchData}
    (hwf1 : wfMatch m1) (hnmp1 : NoMatchPre pre (mtext m1 ++ rest))
    (hr0 : scanCount rest = 0) :
    increment_version (some ⟨pre ++ mtext m1 ++ rest⟩) =
      .ok (none, some ⟨pre ++ mtext (incM m1) ++ rest⟩) := by
  have hpure : get_next_version_pure (pre ++ mtext m1 ++ rest) =
      .ok (group1 (incM m1)) := by
    unfold get_next_version_pure
    rw [scanSub_decomposed fRepl hwf1 pre rest hnmp1, scanSub_of_count_zero fRepl rest hr0]
    rw [show scanSearch (pre ++ fRepl m1 ++ rest) = some (incM m1) from
      scanSearch_decomposed (wf_incM hwf1) pre _ (NoMatchPre_transfer hnmp1)]
  unfold increment_version
  dsimp only
  rw [hpure]
  dsimp only
  rw [show scanSub (fun _ => assignChars (group1 (incM m1))) (pre ++ mtext m1 ++ rest) =
      pre ++ assignChars (group1 (incM m1)) ++ rest by
    rw [scanSub_decomposed _ hwf1 pre rest hnmp1, scanSub_of_count_zero _ rest hr0]]
  rw [assignChars_group1]
  rfl

/-- Decomposition of a file containing exactly one version assignment,
located by `re.search`. -/
theorem unique_match_decomp {content : String} {m : MatchData}
    (hs : scanSearch content.data = some m) (hc : scanCount content.data = 1) :
    ∃ pre rest, content.data = pre ++ mtext m ++ rest ∧ wfMatch m ∧
      NoMatchPre pre (mtext m ++ rest) ∧ scanCount rest = 0 := by
  obtain ⟨pre, rest, hdec, hwf, hnmp, _, hcnt⟩ := scanSearch_eq_some hs
  exact ⟨pre, rest, hdec, hwf, hnmp, by omega⟩

theorem string_eta (s : String) : (⟨s.data⟩ : String) = s := rfl

/-! ### Claim theorems: version operations -/

/-- Claim C1: for every file whose content contains exactly one assignment
matching `__version__ = "a.b.c"` (non-negative integers `a`, `b`, `c`),
`_get_next_version` returns the string `"a.b.(c+1)"` and the file content
is byte-for-byte unchanged afterwards (the operation performs no write). -/
theorem get_next_version_peek (content : String) (m : MatchData) (a b c : Nat)
    (hsearch : scanSearch content.data = some m)
    (hcount : scanCount content.data = 1)
    (h1 : m.d1 = natStr a) (h2 : m.d2 = natStr b) (h3 : m.d3 = natStr c) :
    get_next_version (some content) = .ok (versionStr a b (c + 1), some content) := by
  unfold get_next_version
  dsimp only
  rw [get_next_version_pure_ok hsearch]
  dsimp only
  rw [show group1 (incM m) = natStr a ++ '.' :: natStr b ++ '.' :: natStr (c + 1) by
    simp [group1, incM, h1, h2, h3, digVal_natStr]]
  rfl

theorem get_next_version_peek_witness :
    scanCount "__version__ = \"1.2.3\"".data = 1 ∧
    get_next_version (some "__version__ = \"1.2.3\"") =
      .ok ("1.2.4", some "__version__ = \"1.2.3\"") := by
  refine ⟨by decide, ?_⟩
  have h := get_next_version_peek "__version__ = \"1.2.3\""
    ⟨[' '], [' '], ['1'], ['2'], ['3']⟩ 1 2 3
    (by decide) (by decide) (by decide) (by decide) (by decide)
  rw [h]
  rfl

/-- Claim C8: on a file containing exactly one version assignment,
`_increment_version` rewrites the file in place replacing only the matched
assignment; all other content (`pre` and `post`) is preserved verbatim. -/
theorem increment_version_frame (content : String) (m : MatchData)
    (hsearch : scanSearch content.data = some m)
    (hcount : scanCount content.data = 1) :
    ∃ pre post, content.data = pre ++ mtext m ++ post ∧
      increment_version (some content) =
        .ok (none, some ⟨pre ++ mtext (incM m) ++ post⟩) := by
  obtain ⟨pre, rest, hdec, hwf, hnmp, hr0⟩ := unique_match_decomp hsearch hcount
  refine ⟨pre, rest, hdec, ?_⟩
  have hc2 : (⟨pre ++ mtext m ++ rest⟩ : String) = content := by rw [← hdec]
  rw [← hc2]
  exact increment_of_decomposed hwf hnmp hr0

theorem increment_version_frame_witness :
    ∃ pre post, "a\n__version__ = \"1.2.3\"\nb".data =
        pre ++ mtext ⟨[' '], [' '], ['1'], ['2'], ['3']⟩ ++ post ∧
      increment_version (some "a\n__version__ = \"1.2.3\"\nb") =
        .ok (none, some ⟨pre ++ mtext (incM ⟨[' '], [' '], ['1'], ['2'], ['3']⟩) ++ post⟩) :=
  increment_version_frame _ _ (by decide) (by decide)

/-- Claim C9 counterexample: `_increment_version` does not return the new
version string.  On the file `__version__ = "1.2.3"` its Python return
value is `None`, not `"1.2.4"`. -/
theorem increment_version_no_return_value :
    (increment_version (some "__version__ = \"1.2.3\"")).map Prod.fst ≠
      Except.ok (some "1.2.4") := by
  intro h
  rw [show (increment_version (some "__version__ = \"1.2.3\"")).map Prod.fst =
    Except.ok (none : Option String) from rfl] at h
  injection h with h
  exact Option.noConfusion h

/-- Claim C9 amended: `_increment_version` has no `return` statement and
returns `None`; the new version `"{major}.{minor}.{patch+1}"` is written
into the file (the rewritten file's version assignment carries it) rather
than returned. -/
theorem increment_version_returns_none (content : String) (m : MatchData)
    (hsearch : scanSearch content.data = some m)
    (hcount : scanCount content.data = 1) :
    ∃ newContent : String,
      increment_version (some content) = .ok (none, some newContent) ∧
      scanSearch newContent.data = some (incM m) := by
  obtain ⟨pre, rest, hdec, hwf, hnmp, hr0⟩ := unique_match_decomp hsearch hcount
  refine ⟨⟨pre ++ mtext (incM m) ++ rest⟩, ?_, ?_⟩
  · have hc2 : (⟨pre ++ mtext m ++ rest⟩ : String) = content := by rw [← hdec]
    rw [← hc2]
    exact increment_of_decomposed hwf hnmp hr0
  · exact scanSearch_decomposed (wf_incM hwf) pre rest (NoMatchPre_transfer hnmp)

theorem increment_version_returns_none_witness :
    ∃ newContent : String,
      increment_version (some "__version__ = \"1.2.3\"") = .ok (none, some newContent) ∧
      scanSearch newContent.data = some (incM ⟨[' '], [' '], ['1'], ['2'], ['3']⟩) :=
  increment_version_returns_none _ _ (by decide) (by decide)

/-- Claim C2: on a file containing exactly one assignment
`__version__ = "a.b.c"`, calling `_increment_version` twice leaves the file
containing version `a.b.(c+2)` — the second call re-reads the file the
first call wrote, so there is no caching of the version value. -/
theorem increment_version_twice (content : String) (m : MatchData) (a b c : Nat)
    (hsearch : scanSearch content.data = some m)
    (hcount : scanCount content.data = 1)
    (h1 : m.d1 = natStr a) (h2 : m.d2 = natStr b) (h3 : m.d3 = natStr c) :
    ∃ pre post, content.data = pre ++ mtext m ++ post ∧
      incrementTwice (some content) =
        .ok (some ⟨pre ++ mtext ⟨[' '], [' '], natStr a, natStr b, natStr (c + 2)⟩ ++ post⟩) := by
  obtain ⟨pre, rest, hdec, hwf, hnmp, hr0⟩ := unique_match_decomp hsearch hcount
  refine ⟨pre, rest, hdec, ?_⟩
  have hc2 : (⟨pre ++ mtext m ++ rest⟩ : String) = content := by rw [← hdec]
  have hfirst : increment_version (some content) =
      .ok (none, some ⟨pre ++ mtext (incM m) ++ rest⟩) := by
    rw [← hc2]
    exact increment_of_decomposed hwf hnmp hr0
  have hsecond : increment_version (some (⟨pre ++ mtext (incM m) ++ rest⟩ : String)) =
      .ok (none, some ⟨pre ++ mtext (incM (incM m)) ++ rest⟩) :=
    increment_of_decomposed (wf_incM hwf) (NoMatchPre_transfer hnmp) hr0
  unfold incrementTwice
  rw [hfirst]
  dsimp only
  rw [hsecond]
  dsimp only
  rw [show incM (incM m) = ⟨[' '], [' '], natStr a, natStr b, natStr (c + 2)⟩ by
    simp [incM, h1, h2, h3, digVal_natStr]]

theorem increment_version_twice_witness :
    ∃ pre post, "__version__ = \"1.2.3\"".data =
        pre ++ mtext ⟨[' '], [' '], ['1'], ['2'], ['3']⟩ ++ post ∧
      incrementTwice (some "__version__ = \"1.2.3\"") =
        .ok (some ⟨pre ++ mtext ⟨[' '], [' '], natStr 1, natStr 2, natStr 5⟩ ++ post⟩) :=
  increment_version_twice _ _ 1 2 3 (by decide) (by decide) (by decide) (by decide) (by decide)

/-- Claim C6: error behaviour of the file operations.
`_get_next_version` and `_increment_version` raise `Version file not
found.` iff the path does not exist, raise `No version found.` iff the file
exists but contains no assignment matching the version pattern, and return
normally otherwise; `_update_changelog` raises `Changelog file not found.`
iff its path does not exist. -/
theorem version_error_cases :
    (∀ fs : Option String,
      (get_next_version fs = .error "Version file not found." ↔ fs = none)) ∧
    (∀ fs : Option String,
      (increment_version fs = .error "Version file not found." ↔ fs = none)) ∧
    (∀ content : String,
      (get_next_version (some content) = .error "No version found." ↔
        scanCount content.data = 0)) ∧
    (∀ content : String,
      (increment_version (some content) = .error "No version found." ↔
        scanCount content.data = 0)) ∧
    (∀ content : String, scanCount content.data ≠ 0 →
      (∃ v, get_next_version (some content) = .ok (v, some content)) ∧
      (∃ r, increment_version (some content) = .ok r)) ∧
    (∀ (v d : String) (fs : Option String),
      (update_changelog v d fs = .error "Changelog file not found." ↔ fs = none)) := by
  have pure_cases : ∀ cs : List Char, (∃ g, get_next_version_pure cs = Except.ok g) ∨
      get_next_version_pure cs = Except.error "No version found." := by
    intro cs
    unfold get_next_version_pure
    cases hs : scanSearch (scanSub fRepl cs) with
    | none => exact Or.inr rfl
    | some m => exact Or.inl ⟨group1 m, rfl⟩
  have pure_err_iff : ∀ cs : List Char,
      (get_next_version_pure cs = Except.error "No version found." ↔ scanCount cs = 0) := by
    intro cs
    constructor
    · intro h
      by_contra hc
      cases hs : scanSearch cs with
      | none => exact hc ((scanSearch_none_iff cs).mp hs)
      | some m =>
        rw [get_next_version_pure_ok hs] at h
        cases h
    · intro h
      unfold get_next_version_pure
      rw [scanSub_of_count_zero fRepl cs h, (scanSearch_none_iff cs).mpr h]
  refine ⟨?_, ?_, ?_, ?_, ?_, ?_⟩
  · intro fs
    cases fs with
    | none => simp [get_next_version]
    | some content =>
      simp only [get_next_version]
      constructor
      · intro h
        rcases pure_cases content.data with ⟨g, hg⟩ | hg <;> rw [hg] at h
        · cases h
        · injection h with h
          exact absurd h (by decide)
      · intro h
        cases h
  · intro fs
    cases fs with
    | none => simp [increment_version]
    | some content =>
      simp only [increment_version]
      constructor
      · intro h
        rcases pure_cases content.data with ⟨g, hg⟩ | hg <;> rw [hg] at h
        · cases h
        · injection h with h
          exact absurd h (by decide)
      · intro h
        cases h
  · intro content
    refine Iff.trans ?_ (pure_err_iff content.data)
    simp only [get_next_version]
    rcases pure_cases content.data with ⟨g, hg⟩ | hg <;> rw [hg] <;> dsimp only
    · constructor <;> (intro h; cases h)
    · simp
  · intro content
    refine Iff.trans ?_ (pure_err_iff content.data)
    simp only [increment_version]
    rcases pure_cases content.data with ⟨g, hg⟩ | hg <;> rw [hg] <;> dsimp only
    · constructor <;> (intro h; cases h)
    · simp
  · intro content h
    cases hs : scanSearch content.data with
    | none => exact absurd ((scanSearch_none_iff _).mp hs) h
    | some m =>
      constructor
      · refine ⟨⟨group1 (incM m)⟩, ?_⟩
        simp only [get_next_version]
        rw [get_next_version_pure_ok hs]
      · refine ⟨(none, some ⟨scanSub
          (fun _ => assignChars (group1 (incM m))) content.data⟩), ?_⟩
        simp only [increment_version]
        rw [get_next_version_pure_ok hs]
  · intro v d fs
    cases fs with
    | none => simp [update_changelog]
    | some content =>
      simp only [update_changelog]
      constructor
      · intro h
        cases h
      · intro h
        cases h

theorem version_error_cases_witness :
    get_next_version none = .error "Version file not found." ∧
    increment_version none = .error "Version file not found." ∧
    get_next_version (some "nothing here") = .error "No version found." ∧
    (∃ v, get_next_version (some "__version__ = \"0.1.2\"") =
      .ok (v, some "__version__ = \"0.1.2\"")) ∧
    update_changelog "1.0.0" "2026-10-12" none = .error "Changelog file not found." := by
  refine ⟨(version_error_cases.1 none).mpr rfl,
    (version_error_cases.2.1 none).mpr rfl,
    (version_error_cases.2.2.1 "nothing here").mpr (by decide),
    (version_error_cases.2.2.2.2.1 "__version__ = \"0.1.2\"" (by decide)).1,
    (version_error_cases.2.2.2.2.2 "1.0.0" "2026-10-12" none).mpr rfl⟩

/-! ### Changelog lemmas and claims C3, C4 -/

theorem flatten_readlines : ∀ cs : List Char, (readlinesC cs).flatten = cs := by
  intro cs
  induction cs with
  | nil => rfl
  | cons c t ih =>
    by_cases hc : c = '\n'
    · subst hc
      rw [show readlinesC ('\n' :: t) = ['\n'] :: readlinesC t from rfl,
        List.flatten_cons, ih]
      rfl
    · simp only [readlinesC, if_neg hc]
      cases hr : readlinesC t with
      | nil =>
        rw [hr] at ih
        simp only [List.flatten_nil] at ih
        dsimp only
        rw [← ih]
        rfl
      | cons l ls =>
        rw [hr] at ih
        dsimp only
        simp only [List.flatten_cons] at ih ⊢
        rw [List.cons_append, ih]

theorem readlines_first : ∀ (cs l : List Char) (ls : List (List Char)),
    readlinesC cs = l :: ls → ls ≠ [] →
    ∃ core, l = core ++ ['\n'] ∧ '\n' ∉ core ∧
      readlinesC ls.flatten = ls ∧ cs = l ++ ls.flatten := by
  intro cs
  induction cs with
  | nil => intro l ls h _; cases h
  | cons c t ih =>
    intro l ls h hne
    by_cases hc : c = '\n'
    · subst hc
      simp only [readlinesC, if_pos rfl] at h
      injection h with h1 h2
      subst h1
      subst h2
      refine ⟨[], rfl, by simp, ?_, ?_⟩
      · rw [flatten_readlines t]
      · rw [flatten_readlines t]
        rfl
    · simp only [readlinesC, if_neg hc] at h
      cases hr : readlinesC t with
      | nil =>
        rw [hr] at h
        dsimp only at h
        injection h with h1 h2
        exact absurd h2.symm hne
      | cons l' ls' =>
        rw [hr] at h
        dsimp only at h
        injection h with h1 h2
        subst h1
        obtain ⟨core', hl', hnin', hrl', hcs'⟩ := ih l' ls' hr (by rw [h2]; exact hne)
        refine ⟨c :: core', by rw [hl']; rfl, ?_, ?_, ?_⟩
        · simp only [List.mem_cons, not_or]
          exact ⟨fun hh => hc hh.symm, hnin'⟩
        · rw [← h2]; exact hrl'
        · rw [← h2, List.cons_append, ← hcs']

theorem splitLinesC_newline (ys : List Char) :
    splitLinesC ('\n' :: ys) = [] :: splitLinesC ys := by
  simp [splitLinesC]

theorem splitLinesC_ne_nil : ∀ cs : List Char, splitLinesC cs ≠ [] := by
  intro cs
  cases cs with
  | nil => simp [splitLinesC]
  | cons c t =>
    by_cases hc : c = '\n'
    · subst hc; simp [splitLinesC]
    · simp only [splitLinesC, if_neg hc]
      cases hr : splitLinesC t <;> simp

theorem splitLinesC_append : ∀ (x ys : List Char), '\n' ∉ x →
    splitLinesC (x ++ '\n' :: ys) = x :: splitLinesC ys := by
  intro x
  induction x with
  | nil => intro ys _; simp [splitLinesC_newline]
  | cons c t ih =>
    intro ys hx
    have hc : ¬ (c = '\n') := fun hh => hx (by simp [hh])
    have ht : '\n' ∉ t := fun hh => hx (by simp [hh])
    rw [List.cons_append]
    simp only [splitLinesC, if_neg hc]
    rw [ih ys ht]


theorem entryChunk_data (v d : String) :
    (entryChunk v d).data = ("**" ++ v ++ "** (" ++ d ++ ")").data ++
      '\n' :: ("  * Maintenance updates via ambient-package-update".data ++ ['\n', '\n']) := by
  have hsplit : (")\n  * Maintenance updates via ambient-package-update\n\n" : String).data =
      ")".data ++ '\n' :: ("  * Maintenance updates via ambient-package-update".data ++
        ['\n', '\n']) := by decide
  simp only [entryChunk, String.data_append, hsplit, List.append_assoc]
  simp

theorem newline_not_in_header (v d : String) (hv : '\n' ∉ v.data) (hd : '\n' ∉ d.data) :
    '\n' ∉ ("**" ++ v ++ "** (" ++ d ++ ")").data := by
  simp only [String.data_append, List.mem_append, not_or]
  refine ⟨⟨⟨⟨by decide, hv⟩, by decide⟩, hd⟩, by decide⟩

theorem changelog_empty_content (v d : String) :
    update_changelog_content v d "" =
      ⟨'\n' :: '\n' :: ((entryChunk v d).data ++ ['\n'])⟩ := by
  unfold update_changelog_content
  rfl

/-- Claim C3 counterexample: on an empty changelog the result's first three
lines are NOT all blank — the entry header is already the third line
(1-based), not the fourth. -/
theorem changelog_empty_cex :
    ¬ ((linesOf (update_changelog_content "1.2.3" "2026-10-12" "")).take 5 =
      ["", "", "", "**1.2.3** (2026-10-12)",
       "  * Maintenance updates via ambient-package-update"]) := by
  decide

/-- Claim C3 amended: changelog insertion on a 0-line (empty) file yields a
file whose first two lines are blank, whose 3rd and 4th lines (1-based) are
the entry header `**{version}** ({date})` and the fixed bullet line, and
whose remaining lines are blank. -/
theorem changelog_empty_file (v d : String) (hv : '\n' ∉ v.data) (hd : '\n' ∉ d.data) :
    linesOf (update_changelog_content v d "") =
      ["", "", "**" ++ v ++ "** (" ++ d ++ ")",
       "  * Maintenance updates via ambient-package-update", "", "", ""] := by
  rw [changelog_empty_content, linesOf]
  rw [show (⟨'\n' :: '\n' :: ((entryChunk v d).data ++ ['\n'])⟩ : String).data =
    '\n' :: '\n' :: ((entryChunk v d).data ++ ['\n']) from rfl]
  rw [splitLinesC_newline, splitLinesC_newline, entryChunk_data]
  rw [List.append_assoc, List.cons_append]
  rw [splitLinesC_append _ _ (newline_not_in_header v d hv hd)]
  rw [List.append_assoc]
  rw [show ((['\n', '\n'] ++ ['\n']) : List Char) = '\n' :: ['\n', '\n'] from rfl]
  rw [splitLinesC_append _ _ (by decide)]
  rw [show splitLinesC ['\n', '\n'] = [[], [], []] from rfl]
  simp only [List.map_cons, List.map_nil]

theorem changelog_empty_file_witness :
    linesOf (update_changelog_content "9.9.9" "2026-01-01" "") =
      ["", "", "**9.9.9** (2026-01-01)",
       "  * Maintenance updates via ambient-package-update", "", "", ""] :=
  changelog_empty_file "9.9.9" "2026-01-01" (by decide) (by decide)


/-- Claim C4: on a changelog with at least 3 existing lines, insertion
preserves lines 0 and 1, places the entry (header, bullet, blank) at line
index 2, and shifts all prior content from index 2 onward down by the
entry's line count (3). -/
theorem changelog_insert_at_2 (content v d : String)
    (h3 : 3 ≤ (readlinesC content.data).length)
    (hv : '\n' ∉ v.data) (hd : '\n' ∉ d.data) :
    linesOf (update_changelog_content v d content) =
      (linesOf content).take 2 ++
        ["**" ++ v ++ "** (" ++ d ++ ")",
         "  * Maintenance updates via ambient-package-update", ""] ++
        (linesOf content).drop 2 := by
  cases hL : readlinesC content.data with
  | nil => rw [hL] at h3; simp at h3
  | cons l0 L1 =>
  cases L1 with
  | nil => rw [hL] at h3; simp at h3
  | cons l1 L2 =>
  cases L2 with
  | nil => rw [hL] at h3; simp at h3
  | cons l2 rest =>
  obtain ⟨core0, hl0, hn0, hr1, hcs0⟩ :=
    readlines_first content.data l0 (l1 :: l2 :: rest) hL (by simp)
  obtain ⟨core1, hl1, hn1, hr2, hcs1⟩ :=
    readlines_first ((l1 :: l2 :: rest).flatten) l1 (l2 :: rest) hr1 (by simp)
  have hcontent : content.data =
      core0 ++ '\n' :: (core1 ++ '\n' :: (l2 :: rest).flatten) := by
    rw [hcs0, hcs1, hl0, hl1]
    simp [List.append_assoc]
  have hupd : (update_changelog_content v d content).data =
      core0 ++ '\n' :: (core1 ++ '\n' :: ((entryChunk v d).data ++ (l2 :: rest).flatten)) := by
    unfold update_changelog_content
    rw [show ((⟨List.flatten ((readlinesC content.data ++
        List.replicate (3 - (readlinesC content.data).length) ['\n']).take 2 ++
        [(entryChunk v d).data] ++
        (readlinesC content.data ++
          List.replicate (3 - (readlinesC content.data).length) ['\n']).drop 2)⟩ : String)).data =
      List.flatten ((readlinesC content.data ++
        List.replicate (3 - (readlinesC content.data).length) ['\n']).take 2 ++
        [(entryChunk v d).data] ++
        (readlinesC content.data ++
          List.replicate (3 - (readlinesC content.data).length) ['\n']).drop 2) from rfl]
    rw [hL]
    rw [show (3 - (l0 :: l1 :: l2 :: rest).length) = 0 by simp]
    rw [List.replicate_zero, List.append_nil]
    rw [show ((l0 :: l1 :: l2 :: rest).take 2 ++ [(entryChunk v d).data] ++
        (l0 :: l1 :: l2 :: rest).drop 2) =
      l0 :: l1 :: (entryChunk v d).data :: l2 :: rest from rfl]
    rw [show (l0 :: l1 :: (entryChunk v d).data :: l2 :: rest).flatten =
      l0 ++ (l1 ++ ((entryChunk v d).data ++ (l2 :: rest).flatten)) from rfl]
    rw [hl0, hl1]
    simp [List.append_assoc]
  have hlines_upd : linesOf (update_changelog_content v d content) =
      (core0 :: core1 :: ("**" ++ v ++ "** (" ++ d ++ ")").data ::
        "  * Maintenance updates via ambient-package-update".data :: [] ::
        splitLinesC ((l2 :: rest).flatten)).map (fun l => (⟨l⟩ : String)) := by
    rw [linesOf, hupd]
    rw [splitLinesC_append _ _ hn0, splitLinesC_append _ _ hn1]
    rw [entryChunk_data, List.append_assoc, List.cons_append]
    rw [splitLinesC_append _ _ (newline_not_in_header v d hv hd)]
    rw [List.append_assoc]
    rw [show (['\n', '\n'] ++ (l2 :: rest).flatten) =
      '\n' :: ('\n' :: (l2 :: rest).flatten) from rfl]
    rw [splitLinesC_append _ _ (by decide), splitLinesC_newline]
  have hlines_content : linesOf content =
      (core0 :: core1 :: splitLinesC ((l2 :: rest).flatten)).map
        (fun l => (⟨l⟩ : String)) := by
    rw [linesOf, hcontent]
    rw [splitLinesC_append _ _ hn0, splitLinesC_append _ _ hn1]
  rw [hlines_upd, hlines_content]
  simp only [List.map_cons, List.take, List.drop, List.cons_append, List.nil_append,
    List.append_assoc]

theorem changelog_insert_at_2_witness :
    linesOf (update_changelog_content "1.0.1" "2026-10-12"
        "# Changes\n\n**1.0.0** (2025-01-01)\n  * old entry\n") =
      (linesOf "# Changes\n\n**1.0.0** (2025-01-01)\n  * old entry\n").take 2 ++
        ["**1.0.1** (2026-10-12)",
         "  * Maintenance updates via ambient-package-update", ""] ++
        (linesOf "# Changes\n\n**1.0.0** (2025-01-01)\n  * old entry\n").drop 2 :=
  changelog_insert_at_2 _ "1.0.1" "2026-10-12" (by decide) (by decide) (by decide)

/-! ### Claims C5 (command runner), C7 (skip path), C10 (package name) -/

/-- Claim C5: `_run_command` emits the captured stdout as a (green)
success report iff the exit code is 0; on any non-zero exit code it emits
the captured stderr if non-empty, else the captured stdout, as a (red)
failure report, and the failure printer itself unconditionally terminates
the process with exit status 1. -/
theorem run_command_report (r : CommandResult) :
    (run_command r = (green_text ("> " ++ r.stdout), none) ↔ r.returncode = 0) ∧
    (r.returncode ≠ 0 →
      run_command r =
        (red_text ("> " ++ (if r.stderr ≠ "" then r.stderr else r.stdout)), some 1)) := by
  constructor
  · constructor
    · intro h
      by_contra hc
      unfold run_command at h
      rw [if_neg hc] at h
      by_cases hs : r.stderr ≠ ""
      · rw [if_pos hs] at h
        exact Option.noConfusion (congrArg Prod.snd h)
      · rw [if_neg hs] at h
        exact Option.noConfusion (congrArg Prod.snd h)
    · intro h
      unfold run_command
      rw [if_pos h]
      rfl
  · intro h
    unfold run_command
    rw [if_neg h]
    by_cases hs : r.stderr ≠ ""
    · simp only [hs, if_true, ne_eq, not_false_iff]
      rfl
    · simp only [hs, if_false]
      rfl

theorem run_command_report_witness :
    run_command ⟨1, "out", "err"⟩ =
      (red_text ("> " ++ (if ("err" : String) ≠ "" then "err" else "out")), some 1) ∧
    run_command ⟨0, "ok", ""⟩ = (green_text ("> " ++ "ok"), none) :=
  ⟨(run_command_report ⟨1, "out", "err"⟩).2 (by decide),
    (run_command_report ⟨0, "ok", ""⟩).1.mpr rfl⟩

/-- Claim C7: when the diff check after template rendering reports no
uncommitted changes (exit code 0), the package is skipped: the version file
and the changelog are untouched, and if the maintenance branch was freshly
created in this run (`branch_already_exists = false`) the workflow first
issues `git checkout {main}` and then `git branch -d {branch}` before
moving on; no other command is issued after the render. -/
theorem process_skip (venv mb bn ver date : String) (bae : Bool) (rc : Int)
    (bea : Bool) (vfs cfs : Option String) (hrc : rc = 0) :
    process_after_render venv mb bn ver date bae rc bea vfs cfs =
      .ok ((venv ++ " -m ambient_package_update.cli render-templates") ::
        (if bae then [] else ["git checkout " ++ mb, "git branch -d " ++ bn]),
        vfs, cfs) := by
  subst hrc
  cases bae <;> simp [process_after_render]

theorem process_skip_witness :
    process_after_render "py" "master" "maintenance/v1.2.4" "1.2.4" "2026-10-12"
      false 0 false (some "v") (some "c") =
      .ok (["py -m ambient_package_update.cli render-templates",
        "git checkout master", "git branch -d maintenance/v1.2.4"],
        some "v", some "c") := by
  rw [process_skip "py" "master" "maintenance/v1.2.4" "1.2.4" "2026-10-12"
    false 0 false (some "v") (some "c") rfl]
  rfl

theorem spanWord_mk {d : List Char} {c0 : Char} (r : List Char) (hd : d ≠ [])
    (hw : ∀ c ∈ d, isWordDash c = true) (hc : isWordDash c0 = false) :
    spanWord (d ++ c0 :: r) = some (d, c0 :: r) := by
  unfold spanWord
  rw [takeWhile_all_cons r hw hc, dropWhile_all_cons r hw hc]
  cases d with
  | nil => exact absurd rfl hd
  | cons x xs => rfl

theorem matchKey_mk (key w1 w2 v post : List Char)
    (hw1 : ∀ c ∈ w1, isSpaceC c = true) (hw2 : ∀ c ∈ w2, isSpaceC c = true)
    (hv : v ≠ []) (hvw : ∀ c ∈ v, isWordDash c = true) :
    matchKey key (key ++ (w1 ++ ('=' :: (w2 ++ ('"' :: (v ++ ('"' :: post))))))) =
      some v := by
  simp only [matchKey, dropLit_self, Option.some_bind]
  rw [dropWhile_all_cons _ hw1 (by decide), expectCh_self]
  simp only [Option.some_bind]
  rw [dropWhile_all_cons _ hw2 (by decide), expectCh_self]
  simp only [Option.some_bind]
  rw [spanWord_mk _ hv hvw (by decide)]
  simp only [Option.some_bind]
  rw [expectCh_self]
  simp only [Option.some_bind]

theorem searchKey_complete (key : List Char) : ∀ (pre rest : List Char),
    (∃ v, matchKey key rest = some v) → rest ≠ [] →
    ∃ u, searchKey key (pre ++ rest) = some u := by
  intro pre
  induction pre with
  | nil =>
    intro rest hm hne
    obtain ⟨v, hv⟩ := hm
    cases rest with
    | nil => exact absurd rfl hne
    | cons c t =>
      refine ⟨v, ?_⟩
      rw [List.nil_append]
      simp only [searchKey, hv]
  | cons c pre ih =>
    intro rest hm hne
    obtain ⟨u, hu⟩ := ih rest hm hne
    rw [List.cons_append]
    cases hmk : matchKey key (c :: (pre ++ rest)) with
    | some w => exact ⟨w, by simp only [searchKey, hmk]⟩
    | none =>
      refine ⟨u, ?_⟩
      simp only [searchKey, hmk]
      exact hu

/-- Claim C10: `get_package_name_from_config` prefers `module_name` over
`package_name`: if a `module_name = "..."` assignment matches, its captured
value is returned (regardless of any `package_name` assignment); otherwise
a matching `package_name = "..."` assignment's value is returned; it raises
`No package name found.` iff neither assignment is present.  The last
conjunct: content containing a `module_name` assignment always succeeds. -/
theorem package_name_prefers_module (content : String) :
    (∀ v, searchKey "module_name".data content.data = some v →
      get_package_name_from_config content = .ok ⟨v⟩) ∧
    (searchKey "module_name".data content.data = none →
      ∀ v, searchKey "package_name".data content.data = some v →
        get_package_name_from_config content = .ok ⟨v⟩) ∧
    (get_package_name_from_config content = .error "No package name found." ↔
      (searchKey "module_name".data content.data = none ∧
        searchKey "package_name".data content.data = none)) ∧
    (∀ pre w1 w2 v post, (∀ c ∈ w1, isSpaceC c = true) → (∀ c ∈ w2, isSpaceC c = true) →
      v ≠ [] → (∀ c ∈ v, isWordDash c = true) →
      content.data = pre ++ ("module_name".data ++
        (w1 ++ ('=' :: (w2 ++ ('"' :: (v ++ ('"' :: post))))))) →
      ∃ u, get_package_name_from_config content = .ok u) := by
  refine ⟨?_, ?_, ?_, ?_⟩
  · intro v hv
    unfold get_package_name_from_config
    rw [hv]
  · intro hnone v hv
    unfold get_package_name_from_config
    rw [hnone, hv]
  · unfold get_package_name_from_config
    cases h1 : searchKey "module_name".data content.data with
    | some v =>
      constructor
      · intro h
        cases h
      · intro h
        cases h.1
    | none =>
      cases h2 : searchKey "package_name".data content.data with
      | some v =>
        constructor
        · intro h
          cases h
        · intro h
          cases h.2
      | none => simp
  · intro pre w1 w2 v post hw1 hw2 hv hvw hcs
    have hne : ("module_name".data ++
        (w1 ++ ('=' :: (w2 ++ ('"' :: (v ++ ('"' :: post))))))) ≠ [] := by
      intro h
      have h1 := (List.append_eq_nil.mp h).1
      exact absurd h1 (by decide)
    obtain ⟨u, hu⟩ := searchKey_complete "module_name".data pre _
      ⟨v, matchKey_mk "module_name".data w1 w2 v post hw1 hw2 hv hvw⟩ hne
    rw [← hcs] at hu
    refine ⟨⟨u⟩, ?_⟩
    unfold get_package_name_from_config
    rw [hu]

theorem package_name_prefers_module_witness :
    get_package_name_from_config "package_name = \"foo\"\nmodule_name = \"bar\"" =
      .ok "bar" :=
  (package_name_prefers_module _).1 "bar".data (by decide)

end UpdateProjects
